import Mathlib

/-!
Verification of the temporal windowing and resampling engine of
`tcn-hard-disk-failure-prediction` (`Dataset_processing.py`, with the duplicate
`factors` in `Classification.py`).

The Python code is shallowly embedded: pandas/dask tables become lists of rows
(or, where only the schema or the array shape matters, lists of column names or
shape tuples), Python ints become `Nat`/`Int`, and missing values (`NaN`)
become `Option`.
-/

namespace DiskPred

/-- Inner loop of `DatasetProcessing.factors` (`Dataset_processing.py` lines
74-76 for `f = 2` and 80-82 for odd `f`): repeatedly divide `n` by `f` while it
is divisible, collecting one copy of `f` per division.  Returns the collected
list together with the remaining quotient.  (The Python loop diverges on
`n = 0`; the embedding adds the `0 < n` guard, which never fires on the
positive inputs the code is run on.) -/
def stripFactor (f n : Nat) : List Nat × Nat :=
  if h : 2 ≤ f ∧ 0 < n ∧ n % f = 0 then
    let r := stripFactor f (n / f)
    (f :: r.1, r.2)
  else
    ([], n)
termination_by n
decreasing_by
  exact Nat.div_lt_self h.2.1 (by omega)

theorem stripFactor_snd_le (f n : Nat) : (stripFactor f n).2 ≤ n := by
  induction n using stripFactor.induct f with
  | case1 n h ih =>
    rw [stripFactor]
    simp only [dif_pos h]
    calc (stripFactor f (n / f)).2 ≤ n / f := ih
      _ ≤ n := Nat.div_le_self n f
  | case2 n h =>
    rw [stripFactor]
    simp [dif_neg h]

/-- Outer loop of `DatasetProcessing.factors` (lines 78-86): trial division by
odd candidates `factor = 3, 5, 7, ...` while `factor * factor ≤ n`, followed by
the final `if n > 1: factors.append(n)`. -/
def oddLoop (factor n : Nat) : List Nat :=
  if h : factor * factor ≤ n then
    let r := stripFactor factor n
    r.1 ++ oddLoop (factor + 2) r.2
  else if 1 < n then [n] else []
termination_by n + 2 - factor
decreasing_by
  have hle : (stripFactor factor n).2 ≤ n := stripFactor_snd_le factor n
  have hfn : factor ≤ n ∨ factor = 0 := by
    rcases Nat.eq_zero_or_pos factor with h0 | h1
    · exact Or.inr h0
    · exact Or.inl (le_trans (Nat.le_mul_of_pos_left factor h1) h)
  omega

/-- `DatasetProcessing.factors` (`Dataset_processing.py` lines 62-87, duplicated
verbatim as the module-level `factors` in `Classification.py` lines 561-586):
trial-division prime factorization, 2 first, then odd candidates. -/
def factors (n : Nat) : List Nat :=
  let r := stripFactor 2 n
  r.1 ++ oddLoop 3 r.2

theorem stripFactor_mul (f n : Nat) :
    (stripFactor f n).2 * f ^ (stripFactor f n).1.length = n := by
  induction n using stripFactor.induct f with
  | case1 n h ih =>
    rw [stripFactor]
    simp only [dif_pos h, List.length_cons, pow_succ, ← mul_assoc]
    rw [ih]
    exact Nat.div_mul_cancel (Nat.dvd_of_mod_eq_zero h.2.2)
  | case2 n h =>
    rw [stripFactor]
    simp [dif_neg h]

theorem stripFactor_mem (f n : Nat) : ∀ x ∈ (stripFactor f n).1, x = f := by
  induction n using stripFactor.induct f with
  | case1 n h ih =>
    rw [stripFactor]
    simp only [dif_pos h, List.mem_cons]
    rintro x (rfl | hx)
    · rfl
    · exact ih x hx
  | case2 n h =>
    rw [stripFactor]
    simp [dif_neg h]

theorem stripFactor_snd_pos (f n : Nat) : 0 < n → 0 < (stripFactor f n).2 := by
  induction n using stripFactor.induct f with
  | case1 n h ih =>
    intro _
    rw [stripFactor]
    simp only [dif_pos h]
    exact ih (Nat.div_pos (Nat.le_of_dvd h.2.1 (Nat.dvd_of_mod_eq_zero h.2.2)) (by omega))
  | case2 n h =>
    intro hn
    rw [stripFactor]
    simpa [dif_neg h]

theorem stripFactor_not_dvd (f n : Nat) (hf : 2 ≤ f) : 0 < n → ¬ f ∣ (stripFactor f n).2 := by
  induction n using stripFactor.induct f with
  | case1 n h ih =>
    intro _
    rw [stripFactor]
    simp only [dif_pos h]
    exact ih (Nat.div_pos (Nat.le_of_dvd h.2.1 (Nat.dvd_of_mod_eq_zero h.2.2)) (by omega))
  | case2 n h =>
    intro hn
    rw [stripFactor]
    simp only [dif_neg h]
    intro hdvd
    exact h ⟨hf, hn, Nat.mod_eq_zero_of_dvd hdvd⟩

theorem sorted_of_all_eq {c : Nat} :
    ∀ {l : List Nat}, (∀ x ∈ l, x = c) → List.Sorted (· ≤ ·) l := by
  intro l
  induction l with
  | nil => intro _; simp
  | cons a t ih =>
    intro h
    rw [List.sorted_cons]
    refine ⟨fun b hb => ?_, ih fun x hx => h x (List.mem_cons_of_mem _ hx)⟩
    rw [h a (List.mem_cons_self _ _), h b (List.mem_cons_of_mem _ hb)]

theorem oddLoop_spec (factor n : Nat) :
    3 ≤ factor → factor % 2 = 1 → 0 < n →
    (∀ p : Nat, p.Prime → p ∣ n → factor ≤ p) →
    (oddLoop factor n).prod = n ∧
    (∀ q ∈ oddLoop factor n, q.Prime ∧ factor ≤ q) ∧
    List.Sorted (· ≤ ·) (oddLoop factor n) := by
  induction factor, n using oddLoop.induct with
  | case1 factor n hguard r ih =>
    intro h3 hodd hn hmin
    have hmul := stripFactor_mul factor n
    have hmem := stripFactor_mem factor n
    have hpos := stripFactor_snd_pos factor n hn
    have hnd := stripFactor_not_dvd factor n (by omega) hn
    have hmdvd : (stripFactor factor n).2 ∣ n := ⟨factor ^ (stripFactor factor n).1.length, hmul.symm⟩
    have hmin' : ∀ p : Nat, p.Prime → p ∣ (stripFactor factor n).2 → factor + 2 ≤ p := by
      intro p hp hpd
      have h1 : factor ≤ p := hmin p hp (hpd.trans hmdvd)
      have h2 : p ≠ factor := by
        rintro rfl
        exact hnd hpd
      have h4 : p ≠ factor + 1 := by
        rintro rfl
        have heven : 2 ∣ factor + 1 := by omega
        rcases hp.eq_one_or_self_of_dvd 2 heven with h5 | h5 <;> omega
      omega
    obtain ⟨ihprod, ihmem, ihsort⟩ := ih (by omega) (by omega) hpos hmin'
    have hfprime : (stripFactor factor n).1 ≠ [] → factor.Prime := by
      intro hne
      have hk : 1 ≤ (stripFactor factor n).1.length := by
        cases hl : (stripFactor factor n).1 with
        | nil => exact absurd hl hne
        | cons a t => simp [hl]
      have hfd : factor ∣ n := by
        refine Dvd.dvd.trans (dvd_pow_self factor (by omega : (stripFactor factor n).1.length ≠ 0)) ?_
        exact ⟨(stripFactor factor n).2, by rw [mul_comm]; exact hmul.symm⟩
      have hmf_prime : (factor.minFac).Prime := Nat.minFac_prime (by omega)
      have hmf_le : factor.minFac ≤ factor := Nat.minFac_le (by omega)
      have hmf_ge : factor ≤ factor.minFac :=
        hmin factor.minFac hmf_prime ((Nat.minFac_dvd factor).trans hfd)
      have : factor.minFac = factor := le_antisymm hmf_le hmf_ge
      rwa [this] at hmf_prime
    rw [oddLoop]
    simp only [dif_pos hguard]
    refine ⟨?_, ?_, ?_⟩
    · rw [List.prod_append, ihprod, List.prod_eq_pow_card _ factor hmem, mul_comm]
      exact hmul
    · intro q hq
      rcases List.mem_append.mp hq with hq1 | hq2
      · have hqf := hmem q hq1
        subst hqf
        exact ⟨hfprime (List.ne_nil_of_mem hq1), le_refl _⟩
      · obtain ⟨hqp, hqge⟩ := ihmem q hq2
        exact ⟨hqp, by omega⟩
    · refine List.pairwise_append.mpr ⟨sorted_of_all_eq hmem, ihsort, ?_⟩
      intro a ha b hb
      have := hmem a ha
      have := (ihmem b hb).2
      omega
  | case2 factor n hguard h1n =>
    intro h3 hodd hn hmin
    have hnprime : n.Prime := by
      by_contra hnp
      have hsq := Nat.minFac_sq_le_self (by omega) hnp
      have hp := Nat.minFac_prime (by omega : n ≠ 1)
      have hge := hmin n.minFac hp (Nat.minFac_dvd n)
      have h2 : factor * factor ≤ n.minFac * n.minFac := Nat.mul_le_mul hge hge
      have h3' : n.minFac * n.minFac ≤ n := by
        rw [← pow_two]
        exact hsq
      exact hguard (h2.trans h3')
    rw [oddLoop]
    simp only [dif_neg hguard, if_pos h1n]
    refine ⟨by simp, ?_, by simp⟩
    intro q hq
    rw [List.mem_singleton] at hq
    subst hq
    exact ⟨hnprime, hmin q hnprime dvd_rfl⟩
  | case3 factor n hguard h1n =>
    intro h3 hodd hn hmin
    have hone : n = 1 := by omega
    subst hone
    rw [oddLoop, dif_neg hguard, if_neg h1n]
    simp

theorem factors_spec (n : Nat) (hn : 0 < n) :
    (factors n).prod = n ∧
    (∀ q ∈ factors n, q.Prime) ∧
    List.Sorted (· ≤ ·) (factors n) := by
  have hmul := stripFactor_mul 2 n
  have hmem := stripFactor_mem 2 n
  have hpos := stripFactor_snd_pos 2 n hn
  have hnd := stripFactor_not_dvd 2 n (le_refl 2) hn
  have hmdvd : (stripFactor 2 n).2 ∣ n := ⟨2 ^ (stripFactor 2 n).1.length, hmul.symm⟩
  have hmin3 : ∀ p : Nat, p.Prime → p ∣ (stripFactor 2 n).2 → 3 ≤ p := by
    intro p hp hpd
    have h2 := hp.two_le
    have : p ≠ 2 := by
      rintro rfl
      exact hnd hpd
    omega
  obtain ⟨oprod, omem, osort⟩ := oddLoop_spec 3 (stripFactor 2 n).2 (le_refl 3) rfl hpos hmin3
  unfold factors
  refine ⟨?_, ?_, ?_⟩
  · rw [List.prod_append, oprod, List.prod_eq_pow_card _ 2 hmem, mul_comm]
    exact hmul
  · intro q hq
    rcases List.mem_append.mp hq with hq1 | hq2
    · rw [hmem q hq1]
      exact Nat.prime_two
    · exact (omem q hq2).1
  · refine List.pairwise_append.mpr ⟨sorted_of_all_eq hmem, osort, ?_⟩
    intro a ha b hb
    have := hmem a ha
    have := (omem b hb).2
    omega

theorem factors_eq_primeFactorsList (n : Nat) (hn : 0 < n) :
    factors n = n.primeFactorsList := by
  obtain ⟨hprod, hprime, hsort⟩ := factors_spec n hn
  exact List.eq_of_perm_of_sorted
    (Nat.primeFactorsList_unique hprod hprime)
    hsort (Nat.primeFactorsList_sorted n)

theorem factors_one : factors 1 = [] := by
  rw [factors_eq_primeFactorsList 1 (by omega), Nat.primeFactorsList_one]

theorem primeFactorsList_twelve : Nat.primeFactorsList 12 = [2, 2, 3] := by
  refine (List.eq_of_perm_of_sorted (Nat.primeFactorsList_unique ?_ ?_) ?_
    (Nat.primeFactorsList_sorted 12)).symm
  · norm_num
  · intro p hp
    fin_cases hp <;> norm_num
  · decide

theorem factors_twelve : factors 12 = [2, 2, 3] := by
  rw [factors_eq_primeFactorsList 12 (by omega), primeFactorsList_twelve]

/-- C8: for every positive integer `n`, `factors(n)` returns the prime factors
of `n` in ascending order, each listed with its multiplicity (it is exactly the
canonical prime-factor list of `n`), so that the product of the returned list
equals `n`; in particular `factors(1) = []` and `factors(12) = [2, 2, 3]`. -/
theorem C8_factors_prime_factorization (n : Nat) (hn : 0 < n) :
    (factors n).prod = n ∧
    (∀ q ∈ factors n, q.Prime) ∧
    List.Sorted (· ≤ ·) (factors n) ∧
    factors n = n.primeFactorsList ∧
    factors 1 = [] ∧
    factors 12 = [2, 2, 3] := by
  obtain ⟨h1, h2, h3⟩ := factors_spec n hn
  exact ⟨h1, h2, h3, factors_eq_primeFactorsList n hn, factors_one, factors_twelve⟩

theorem C8_witness :
    0 < 12 ∧
    ((factors 12).prod = 12 ∧
      (∀ q ∈ factors 12, q.Prime) ∧
      List.Sorted (· ≤ ·) (factors 12) ∧
      factors 12 = Nat.primeFactorsList 12 ∧
      factors 1 = [] ∧
      factors 12 = [2, 2, 3]) :=
  ⟨by omega, C8_factors_prime_factorization 12 (by omega)⟩

/-- Effective window depth handed to the Reshaper, embedded from
`preprocess_dataset` (`Dataset_processing.py` line 293):
`data_dim = sum(number - 1 for number in self.factors(self.window_dim)) + 1
if self.overlap != 1 else self.window_dim`. -/
def data_dim (overlap : Int) (window_dim : Nat) : Nat :=
  if overlap ≠ 1 then ((factors window_dim).map (fun number => number - 1)).sum + 1
  else window_dim

/-- C1: the effective window depth is determined by `window_dim` and the
overlap policy alone: it equals `window_dim` when `overlap == 1` (Full), and
`Σ (f - 1) + 1` over the prime factors `f` of `window_dim` for Dynamic and
Hybrid (`overlap != 1`); for `window_dim = 12` (prime factors `[2, 2, 3]`) the
Dynamic/Hybrid depth is `5`. -/
theorem C1_effective_window_depth (overlap : Int) (w : Nat) (hw : 0 < w) :
    data_dim overlap w =
      (if overlap = 1 then w
       else ((Nat.primeFactorsList w).map (fun f => f - 1)).sum + 1) ∧
    (overlap ≠ 1 → data_dim overlap 12 = 5) := by
  constructor
  · unfold data_dim
    by_cases h : overlap = 1
    · simp [h]
    · rw [if_pos h, if_neg h, factors_eq_primeFactorsList w hw]
  · intro h
    unfold data_dim
    rw [if_pos h, factors_twelve]
    rfl

theorem C1_witness :
    0 < 12 ∧
    (data_dim 0 12 =
      (if (0 : Int) = 1 then 12
       else ((Nat.primeFactorsList 12).map (fun f => f - 1)).sum + 1) ∧
     ((0 : Int) ≠ 1 → data_dim 0 12 = 5)) :=
  ⟨by omega, C1_effective_window_depth 0 12 (by omega)⟩

/-- One row of the working table, as seen by the down-sampling and routing
steps: its dataframe index label, its `serial_number` (device id, abstracted to
a number), and the two label columns consulted by the engine. -/
structure Row where
  label : Nat
  serial : Nat
  predict_val : Int
  validate_val : Int
deriving DecidableEq

/-- Maximum of a list of integers (used for one rolling window; the empty case
never arises on the windows the code evaluates). -/
def listMax : List Int → Int
  | [] => 0
  | [x] => x
  | x :: y :: xs => max x (listMax (y :: xs))

/-- `Series.rolling(down_factor).max()` (line 103-104): entry `i` is the
maximum of the trailing window of `k` values ending at `i`, and is missing
(`NaN`, embedded as `none`) while fewer than `k` values are available, i.e. for
`i < k - 1`. -/
def rollingMax (k : Nat) (vals : List Int) : List (Option Int) :=
  (List.range vals.length).map fun i =>
    if k ≤ i + 1 then some (listMax ((vals.drop (i + 1 - k)).take k)) else none

/-- Iteration of a Python slice with positive step: emit `start` while
`start < stop`, advancing by `step`.  The fuel argument (`stop - start`
suffices when `1 ≤ step`) makes the recursion structural. -/
def sliceIdxGo (stop step : Nat) : Nat → Nat → List Nat
  | 0, _ => []
  | fuel + 1, start =>
      if start < stop then start :: sliceIdxGo stop step fuel (start + step) else []

/-- Positions selected by the Python slice `[start:stop:step]` once both bounds
have been clamped to `[0, len]`, for a positive step.  (Slicing with step `0`
raises in Python; the embedding returns `[]`, and every use in the code has
`step ≥ 2`.) -/
def sliceIdx (start stop step : Nat) : List Nat :=
  if 1 ≤ step then sliceIdxGo stop step (stop - start) start else []

/-- Python slicing of a list by `[start:stop:step]` (positional, as pandas
slices a `Series` with an integer-stride slice). -/
def pySliceList {α : Type} (l : List α) (start stop step : Nat) : List α :=
  (sliceIdx start stop step).filterMap (fun p => l[p]?)

/-- `DatasetProcessing.under_sample` (lines 89-109): build the rolling max of
`predict_val` over a trailing window of `down_factor` rows, positionally slice
it by `[(len(df) - 1) % down_factor : -7 : down_factor]`, and return the index
labels of the surviving entries.  The slice start is Python's `%` on
`len(df) - 1`, embedded as the Euclidean `emod` so that an empty group gives
`down_factor - 1` exactly as in Python; the `-7` stop clamps to `0` for groups
of at most 7 rows, again as in Python. -/
def under_sample (g : List Row) (down_factor : Nat) : List Nat :=
  let series := (g.map Row.label).zip (rollingMax down_factor (g.map Row.predict_val))
  (pySliceList series (((g.length : Int) - 1) % (down_factor : Int)).toNat
      (g.length - 7) down_factor).map Prod.fst

theorem step_le_of_mod_eq {start p step : Nat} (hlt : start < p)
    (hmod : p % step = start % step) : start + step ≤ p := by
  have hd : step ∣ p - start := (Nat.modEq_iff_dvd' hlt.le).mp (hmod.symm)
  rcases hd with ⟨c, hc⟩
  have hc1 : 1 ≤ c := by
    rcases Nat.eq_zero_or_pos c with rfl | h
    · omega
    · exact h
  have h2 : step * 1 ≤ step * c := Nat.mul_le_mul_left step hc1
  rw [Nat.mul_one] at h2
  omega

theorem sliceIdxGo_mem (stop step : Nat) (hstep : 1 ≤ step) :
    ∀ fuel start, stop - start ≤ fuel →
      ∀ p, p ∈ sliceIdxGo stop step fuel start ↔
        start ≤ p ∧ p < stop ∧ p % step = start % step := by
  intro fuel
  induction fuel with
  | zero =>
    intro start h p
    simp only [sliceIdxGo, List.not_mem_nil, false_iff]
    omega
  | succ fuel ih =>
    intro start h p
    simp only [sliceIdxGo]
    by_cases hlt : start < stop
    · rw [if_pos hlt, List.mem_cons, ih (start + step) (by omega) p]
      constructor
      · rintro (rfl | ⟨h3, h4, h5⟩)
        · exact ⟨le_refl _, hlt, rfl⟩
        · exact ⟨by omega, h4, by rw [h5, Nat.add_mod_right]⟩
      · rintro ⟨h3, h4, h5⟩
        rcases eq_or_lt_of_le h3 with rfl | h6
        · exact Or.inl rfl
        · exact Or.inr ⟨step_le_of_mod_eq h6 h5, h4,
            by rw [h5, Nat.add_mod_right]⟩
    · rw [if_neg hlt]
      simp only [List.not_mem_nil, false_iff]
      omega

theorem sliceIdxGo_pairwise (stop step : Nat) (hstep : 1 ≤ step) :
    ∀ fuel start, stop - start ≤ fuel →
      List.Pairwise (· < ·) (sliceIdxGo stop step fuel start) := by
  intro fuel
  induction fuel with
  | zero =>
    intro start h
    simp [sliceIdxGo]
  | succ fuel ih =>
    intro start h
    simp only [sliceIdxGo]
    by_cases hlt : start < stop
    · rw [if_pos hlt]
      refine List.pairwise_cons.mpr ⟨?_, ih (start + step) (by omega)⟩
      intro b hb
      have := (sliceIdxGo_mem stop step hstep fuel (start + step) (by omega) b).mp hb
      omega
    · rw [if_neg hlt]
      simp

theorem sliceIdx_mem (start stop step : Nat) (hstep : 1 ≤ step) (p : Nat) :
    p ∈ sliceIdx start stop step ↔
      start ≤ p ∧ p < stop ∧ p % step = start % step := by
  unfold sliceIdx
  rw [if_pos hstep]
  exact sliceIdxGo_mem stop step hstep (stop - start) start (le_refl _) p

theorem sliceIdx_eq_filter (start stop step : Nat) (hstep : 1 ≤ step)
    (hstart : start < step) :
    sliceIdx start stop step =
      (List.range stop).filter (fun p => p % step = start) := by
  haveI : IsAntisymm Nat (· < ·) := ⟨fun a b h1 h2 => absurd h2 (Nat.lt_asymm h1)⟩
  have hs1 : List.Pairwise (· < ·) (sliceIdx start stop step) := by
    unfold sliceIdx
    rw [if_pos hstep]
    exact sliceIdxGo_pairwise stop step hstep (stop - start) start (le_refl _)
  have hs2 : List.Pairwise (· < ·)
      ((List.range stop).filter (fun p => p % step = start)) :=
    (List.pairwise_lt_range stop).filter _
  have hperm : List.Perm (sliceIdx start stop step)
      ((List.range stop).filter (fun p => p % step = start)) := by
    apply (List.perm_ext_iff_of_nodup (hs1.imp fun h => Nat.ne_of_lt h)
      ((List.nodup_range stop).filter _)).mpr
    intro p
    rw [sliceIdx_mem start stop step hstep p]
    simp only [List.mem_filter, List.mem_range, decide_eq_true_eq]
    constructor
    · rintro ⟨h1, h2, h3⟩
      exact ⟨h2, by rw [h3, Nat.mod_eq_of_lt hstart]⟩
    · rintro ⟨h1, h2⟩
      refine ⟨?_, h1, by rw [h2, Nat.mod_eq_of_lt hstart]⟩
      calc start = p % step := h2.symm
        _ ≤ p := Nat.mod_le p step
  exact List.eq_of_perm_of_sorted hperm hs1 hs2

theorem filterMap_getElem_eq_map {α : Type} (l : List α) (d : α) :
    ∀ ps : List Nat, (∀ p ∈ ps, p < l.length) →
      ps.filterMap (fun p => l[p]?) = ps.map (fun p => l.getD p d) := by
  intro ps
  induction ps with
  | nil => intro _; rfl
  | cons a t ih =>
    intro h
    have ha : a < l.length := h a (List.mem_cons_self _ _)
    rw [List.filterMap_cons, List.map_cons, List.getElem?_eq_getElem ha,
      ih fun p hp => h p (List.mem_cons_of_mem _ hp),
      List.getD_eq_getElem l d ha]

theorem rollingMax_length (k : Nat) (vals : List Int) :
    (rollingMax k vals).length = vals.length := by
  unfold rollingMax
  rw [List.length_map, List.length_range]

theorem under_sample_eq_map (g : List Row) (k : Nat) :
    under_sample g k =
      (sliceIdx (((g.length : Int) - 1) % (k : Int)).toNat (g.length - 7) k).map
        (fun p => (g.map Row.label).getD p 0) := by
  by_cases hk : 1 ≤ k
  · have hlen : ((g.map Row.label).zip
        (rollingMax k (g.map Row.predict_val))).length = g.length := by
      rw [List.length_zip, rollingMax_length, List.length_map, List.length_map]
      exact Nat.min_self _
    have hb : ∀ p ∈ sliceIdx (((g.length : Int) - 1) % (k : Int)).toNat
        (g.length - 7) k,
        p < ((g.map Row.label).zip
          (rollingMax k (g.map Row.predict_val))).length := by
      intro p hp
      rw [hlen]
      have := (sliceIdx_mem _ _ _ hk p).mp hp
      omega
    simp only [under_sample, pySliceList]
    rw [filterMap_getElem_eq_map _ ((0 : Nat), (none : Option Int)) _ hb]
    rw [List.map_map]
    apply List.map_congr_left
    intro p hp
    have hpL : p < g.length := by
      have := (sliceIdx_mem _ _ _ hk p).mp hp
      omega
    have h1 : p < ((g.map Row.label).zip
        (rollingMax k (g.map Row.predict_val))).length := by
      rw [hlen]
      exact hpL
    have h2 : p < (g.map Row.label).length := by
      rw [List.length_map]
      exact hpL
    simp only [Function.comp_apply]
    rw [List.getD_eq_getElem _ _ h1, List.getD_eq_getElem _ _ h2, List.getElem_zip]
  · simp [under_sample, pySliceList, sliceIdx, hk]

theorem emod_start_eq (L k : Nat) (hL : 1 ≤ L) :
    (((L : Int) - 1) % (k : Int)).toNat = (L - 1) % k := by
  have h1 : ((L : Int) - 1) = ((L - 1 : Nat) : Int) := by omega
  have h2 : ((L - 1 : Nat) : Int) % ((k : Nat) : Int) = (((L - 1) % k : Nat) : Int) := by
    push_cast
    ring
  rw [h1, h2]
  exact Int.toNat_natCast _

theorem pred_mod_of_dvd (L k : Nat) (hk : 1 ≤ k) (hL : 1 ≤ L) (hdvd : k ∣ L) :
    (L - 1) % k = k - 1 := by
  rcases hdvd with ⟨c, rfl⟩
  have hc : 1 ≤ c := by
    rcases Nat.eq_zero_or_pos c with rfl | h
    · omega
    · exact h
  have h2 : k * c = k * (c - 1) + k := by
    cases c with
    | zero => omega
    | succ m => simp [Nat.mul_succ]
  have h1 : k * c - 1 = k * (c - 1) + (k - 1) := by omega
  rw [h1, Nat.mul_add_mod]
  exact Nat.mod_eq_of_lt (by omega)

/-- C5: for every per-device group `g` (rows already in chronological group
order) and every down-sampling factor `k ≥ 1` (Python raises on `k = 0`),
`under_sample` returns exactly the index labels of the group's rows at
positions congruent to `(L - 1) % k` modulo `k` — i.e. position `(L - 1) % k`,
then every `k`-th position after it — stopping before position `L - 7`, so the
last 7 positions of the group are never selected (`L` the group length). -/
theorem C5_under_sample_stride (g : List Row) (k : Nat) (hk : 1 ≤ k) :
    under_sample g k =
      ((List.range (g.length - 7)).filter
        (fun p => p % k = (g.length - 1) % k)).map
        (fun p => (g.map Row.label).getD p 0) := by
  rw [under_sample_eq_map]
  by_cases hg : 1 ≤ g.length
  · rw [emod_start_eq g.length k hg,
      sliceIdx_eq_filter _ _ _ hk (Nat.mod_lt _ (by omega))]
  · have h0 : g.length = 0 := by omega
    rw [h0]
    simp [sliceIdx, sliceIdxGo, hk]

/-- A ten-row group (labels 100-109) used to instantiate C5. -/
def exampleG10 : List Row :=
  [⟨100, 2, 0, 0⟩, ⟨101, 2, 0, 0⟩, ⟨102, 2, 1, 0⟩, ⟨103, 2, 0, 0⟩,
   ⟨104, 2, 0, 0⟩, ⟨105, 2, 1, 0⟩, ⟨106, 2, 0, 0⟩, ⟨107, 2, 0, 0⟩,
   ⟨108, 2, 0, 0⟩, ⟨109, 2, 1, 0⟩]

theorem C5_witness :
    1 ≤ 2 ∧
    under_sample exampleG10 2 =
      ((List.range (exampleG10.length - 7)).filter
        (fun p => p % 2 = (exampleG10.length - 1) % 2)).map
        (fun p => (exampleG10.map Row.label).getD p 0) :=
  ⟨by decide, C5_under_sample_stride exampleG10 2 (by decide)⟩

/-- C9: the index list selected by `under_sample` does not depend on the
values of the `predict_val` column: two groups with the same index labels
(hence the same length and positions) yield the same selection for every
factor `k`.  The rolling maximum computed at lines 102-104 is discarded by
`.index` at line 106, so only the group's positional structure matters. -/
theorem C9_under_sample_ignores_predict_val (g1 g2 : List Row) (k : Nat)
    (hlab : g1.map Row.label = g2.map Row.label) :
    under_sample g1 k = under_sample g2 k := by
  have hlen : g1.length = g2.length := by
    have h := congrArg List.length hlab
    rwa [List.length_map, List.length_map] at h
  rw [under_sample_eq_map, under_sample_eq_map, hlab, hlen]

/-- Ten rows with `predict_val` identically 0 (labels 0-9). -/
def exampleA10 : List Row :=
  [⟨0, 3, 0, 0⟩, ⟨1, 3, 0, 0⟩, ⟨2, 3, 0, 0⟩, ⟨3, 3, 0, 0⟩, ⟨4, 3, 0, 0⟩,
   ⟨5, 3, 0, 0⟩, ⟨6, 3, 0, 0⟩, ⟨7, 3, 0, 0⟩, ⟨8, 3, 0, 0⟩, ⟨9, 3, 0, 0⟩]

/-- The same labels as `exampleA10` but `predict_val` identically 1. -/
def exampleB10 : List Row :=
  [⟨0, 3, 1, 0⟩, ⟨1, 3, 1, 0⟩, ⟨2, 3, 1, 0⟩, ⟨3, 3, 1, 0⟩, ⟨4, 3, 1, 0⟩,
   ⟨5, 3, 1, 0⟩, ⟨6, 3, 1, 0⟩, ⟨7, 3, 1, 0⟩, ⟨8, 3, 1, 0⟩, ⟨9, 3, 1, 0⟩]

theorem C9_witness :
    exampleA10.map Row.label = exampleB10.map Row.label ∧
    under_sample exampleA10 2 = under_sample exampleB10 2 :=
  ⟨by decide, C9_under_sample_ignores_predict_val exampleA10 exampleB10 2 (by decide)⟩

/-- C10: a per-device group with at most 7 rows yields an empty selection for
every factor: the slice stop `len(df) - 7` clamps to 0, so such a device
contributes no retained rows to any Dynamic/Hybrid down-sampling pass (the
per-group lists are concatenated at lines 171-173). -/
theorem C10_short_group_empty (g : List Row) (k : Nat) (h7 : g.length ≤ 7) :
    under_sample g k = [] := by
  rw [under_sample_eq_map]
  have hstop : g.length - 7 = 0 := by omega
  rw [hstop]
  by_cases hk : 1 ≤ k
  · unfold sliceIdx
    rw [if_pos hk, Nat.zero_sub]
    rfl
  · unfold sliceIdx
    rw [if_neg hk]
    rfl

/-- A seven-row group for one device. -/
def exampleG7 : List Row :=
  [⟨0, 4, 0, 0⟩, ⟨1, 4, 0, 0⟩, ⟨2, 4, 1, 0⟩, ⟨3, 4, 0, 0⟩, ⟨4, 4, 0, 0⟩,
   ⟨5, 4, 1, 0⟩, ⟨6, 4, 0, 0⟩]

theorem C10_witness :
    exampleG7.length ≤ 7 ∧ under_sample exampleG7 3 = [] :=
  ⟨by decide, C10_short_group_empty exampleG7 3 (by decide)⟩

/-- Nine rows of one device with positional labels 0-8.  Here
`(9 - 1) % 4 = 0 < 3 = k - 1`, and `0 < 9 - 7`, so the slice `[0:2:4]`
selects position 0, where the trailing 4-row rolling maximum is still
undefined (`NaN`). -/
def exampleG9 : List Row :=
  [⟨0, 1, 0, 0⟩, ⟨1, 1, 0, 0⟩, ⟨2, 1, 0, 0⟩, ⟨3, 1, 0, 0⟩, ⟨4, 1, 0, 0⟩,
   ⟨5, 1, 0, 0⟩, ⟨6, 1, 0, 0⟩, ⟨7, 1, 0, 0⟩, ⟨8, 1, 0, 0⟩]

/-- C3 as stated is false on the code: for a 9-row group and `k = 4`,
`under_sample` selects the index at position `0`, which is earlier than
`k - 1 = 3`, and the trailing 4-row rolling maximum of `predict_val` at that
position is missing. -/
theorem C3_counterexample :
    under_sample exampleG9 4 = [0] ∧
    (rollingMax 4 (exampleG9.map Row.predict_val)).getD 0 none = none ∧
    (0 : Nat) < 4 - 1 :=
  ⟨by decide, by decide, by decide⟩

/-- C3 amended: when the down-sampling factor `k` divides the group length,
every index selected by `under_sample` sits at a position at least `k - 1`
within its group (labels taken positional), where the trailing `k`-row rolling
maximum of `predict_val` is defined; when `k` does not divide the group
length, the first selected index can sit at position `(L - 1) % k < k - 1`,
where that rolling maximum is undefined. -/
theorem C3_rolling_max_defined (g : List Row) (k : Nat) (hk : 1 ≤ k)
    (hlab : g.map Row.label = List.range g.length) (hdvd : k ∣ g.length) :
    ∀ x ∈ under_sample g k,
      k - 1 ≤ x ∧ (rollingMax k (g.map Row.predict_val)).getD x none ≠ none := by
  intro x hx
  rw [under_sample_eq_map] at hx
  rcases List.mem_map.mp hx with ⟨p, hp, rfl⟩
  have hmem := (sliceIdx_mem _ _ _ hk p).mp hp
  have hpL : p < g.length := by omega
  have hlabp : (g.map Row.label).getD p 0 = p := by
    rw [hlab, List.getD_eq_getElem _ _ (by rwa [List.length_range]),
      List.getElem_range]
  rw [hlabp]
  have hL1 : 1 ≤ g.length := by omega
  have hstart := emod_start_eq g.length k hL1
  have hk1 := pred_mod_of_dvd g.length k hk hL1 hdvd
  have hpk : k - 1 ≤ p := by
    have h1 := hmem.1
    rw [hstart, hk1] at h1
    exact h1
  refine ⟨hpk, ?_⟩
  have hrl : p < (rollingMax k (g.map Row.predict_val)).length := by
    rw [rollingMax_length, List.length_map]
    exact hpL
  rw [List.getD_eq_getElem _ _ hrl]
  unfold rollingMax
  rw [List.getElem_map, List.getElem_range, if_pos (by omega : k ≤ p + 1)]
  simp

/-- Twelve rows of one device with positional labels 0-11; `4 ∣ 12`. -/
def exampleG12 : List Row :=
  [⟨0, 5, 0, 0⟩, ⟨1, 5, 0, 0⟩, ⟨2, 5, 0, 0⟩, ⟨3, 5, 0, 0⟩, ⟨4, 5, 1, 0⟩,
   ⟨5, 5, 0, 0⟩, ⟨6, 5, 0, 0⟩, ⟨7, 5, 0, 0⟩, ⟨8, 5, 0, 0⟩, ⟨9, 5, 0, 0⟩,
   ⟨10, 5, 0, 0⟩, ⟨11, 5, 1, 0⟩]

theorem C3_witness :
    (1 ≤ 4 ∧ exampleG12.map Row.label = List.range exampleG12.length ∧
      4 ∣ exampleG12.length) ∧
    ∀ x ∈ under_sample exampleG12 4,
      4 - 1 ≤ x ∧
        (rollingMax 4 (exampleG12.map Row.predict_val)).getD x none ≠ none :=
  ⟨⟨by decide, by decide, by decide⟩,
    C3_rolling_max_defined exampleG12 4 (by decide) (by decide) (by decide)⟩

/-- Shape semantics of `arrays_to_matrix` (lines 215-229):
`X.reshape(X.shape[0], int(X.shape[1] / wind_dim), wind_dim)` maps a 2-D array
of shape `(n, m)` to a 3-D array of shape `(n, m / wind_dim, wind_dim)`. -/
def arrays_to_matrix_shape (shape : Nat × Nat) (wind_dim : Nat) : Nat × Nat × Nat :=
  (shape.1, shape.2 / wind_dim, wind_dim)

/-- Shape semantics of `np.expand_dims(X, axis=1)` (line 296): numpy inserts a
singleton axis at position 1, so a 2-D array of shape `(n, m)` becomes a 3-D
array of shape `(n, 1, m)`. -/
def expand_dims_axis1_shape (shape : Nat × Nat) : Nat × Nat × Nat :=
  (shape.1, 1, shape.2)

/-- Shape of the tensor `X` returned by the final block of
`preprocess_dataset` (lines 291-298): reshape through `arrays_to_matrix` with
depth `data_dim` when `windowing == 1`, otherwise `np.expand_dims(X, axis=1)`. -/
def preprocess_output_shape (windowing overlap : Int) (window_dim : Nat)
    (shape : Nat × Nat) : Nat × Nat × Nat :=
  if windowing = 1 then arrays_to_matrix_shape shape (data_dim overlap window_dim)
  else expand_dims_axis1_shape shape

theorem data_dim_pos (overlap : Int) (w : Nat) (hw : 0 < w) :
    0 < data_dim overlap w := by
  unfold data_dim
  by_cases h : overlap = 1 <;> simp [h, hw]

/-- C2 as stated is false on the code: with windowing disabled, a numeric
table of 3 samples and 4 base features yields a tensor of shape `(3, 1, 4)` —
the singleton axis is inserted as the middle axis — not `(3, 4, 1)` with the
singleton axis appended last, as the claim states. -/
theorem C2_counterexample :
    preprocess_output_shape 0 0 5 (3, 4) = (3, 1, 4) ∧
    preprocess_output_shape 0 0 5 (3, 4) ≠ (3, 4, 1) :=
  ⟨by decide, by decide⟩

/-- C2 amended: when `windowing == 1` the output tensor has shape
`(num_samples, num_base_features, depth)` with the depth computed for the
chosen policy; when windowing is disabled (`windowing != 1`) the output has
shape `(num_samples, 1, num_base_features)` — the singleton axis is inserted
as the second (middle) axis, not appended as the last axis. -/
theorem C2_reshaper_shape (windowing overlap : Int) (w n f : Nat) (hw : 0 < w) :
    (windowing = 1 →
      preprocess_output_shape windowing overlap w (n, f * data_dim overlap w) =
        (n, f, data_dim overlap w)) ∧
    (windowing ≠ 1 →
      ∀ m : Nat, preprocess_output_shape windowing overlap w (n, m) = (n, 1, m)) := by
  constructor
  · intro h1
    unfold preprocess_output_shape arrays_to_matrix_shape
    rw [if_pos h1]
    have hd : 0 < data_dim overlap w := data_dim_pos overlap w hw
    simp only []
    rw [Nat.mul_div_cancel f hd]
  · intro h1 m
    unfold preprocess_output_shape expand_dims_axis1_shape
    rw [if_neg h1]

theorem C2_witness :
    0 < 12 ∧
    (((1 : Int) = 1 →
      preprocess_output_shape 1 0 12 (3, 2 * data_dim 0 12) =
        (3, 2, data_dim 0 12)) ∧
     ((1 : Int) ≠ 1 →
      ∀ m : Nat, preprocess_output_shape 1 0 12 (3, m) = (3, 1, m))) :=
  ⟨by omega, C2_reshaper_shape 1 0 12 3 2 (by omega)⟩

/-- The failed sub-frame selected at line 182 of the Hybrid branch:
`df_failed = self.df[self.df['validate_val']==1]` — a row is selected by its
own `validate_val` value. -/
def df_failed (df : List Row) : List Row :=
  df.filter (fun r => r.validate_val == 1)

/-- Index labels of `dd.concat([a, b], axis=1)` with distinct operand indexes:
pandas outer-joins the two indexes, so the result carries every label of
either operand (only membership in this union is used below). -/
def idxUnion (a b : List Nat) : List Nat :=
  a ++ b.filter (fun x => decide (x ∉ a))

/-- Repeated column-concatenation of the full table onto an accumulated
frame, at the level of row labels. -/
def concatLoopLabels (allLabels : List Nat) : Nat → List Nat → List Nat
  | 0, acc => acc
  | n + 1, acc => concatLoopLabels allLabels n (idxUnion allLabels acc)

/-- Row labels present in `windowed_df_failed` after the Full shift-and-concat
loop of the Hybrid branch (lines 183-187): starting from the labels of
`df_failed`, each of the `window_dim - 1` iterations column-concatenates
`self.df.shift(i+1)` — whose index is the full table's index — onto the
accumulated frame, outer-joining the two indexes. -/
def failedFrameLabels (df : List Row) (window_dim : Nat) : List Nat :=
  concatLoopLabels (df.map Row.label) (window_dim - 1) ((df_failed df).map Row.label)

/-- `reset_index(inplace=True, drop=True)` (line 206): relabel the rows with
the fresh contiguous range `0, 1, 2, ...`. -/
def resetIndex (l : List Row) : List Row :=
  l.enum.map (fun p => { p.2 with label := p.1 })

/-- The Hybrid branch's final combination (lines 205-206):
`windowed_df.append(windowed_df_failed)` followed by the index reset. -/
def hybridCombine (dyn failed : List Row) : List Row :=
  resetIndex (dyn ++ failed)

theorem idxUnion_mem_right (a b : List Nat) (x : Nat) (hx : x ∈ b) :
    x ∈ idxUnion a b := by
  unfold idxUnion
  by_cases ha : x ∈ a
  · exact List.mem_append_left _ ha
  · refine List.mem_append_right _ ?_
    rw [List.mem_filter]
    exact ⟨hx, by simpa using ha⟩

theorem concatLoopLabels_mem (allLabels : List Nat) :
    ∀ n acc x, x ∈ acc → x ∈ concatLoopLabels allLabels n acc := by
  intro n
  induction n with
  | zero =>
    intro acc x hx
    exact hx
  | succ n ih =>
    intro acc x hx
    exact ih _ x (idxUnion_mem_right _ _ x hx)

theorem resetIndex_labels (l : List Row) :
    (resetIndex l).map Row.label = List.range l.length := by
  unfold resetIndex
  rw [List.map_map]
  have h : (Row.label ∘ fun p : Nat × Row => { p.2 with label := p.1 }) = Prod.fst := by
    funext p
    rfl
  rw [h, List.enum_map_fst]

/-- Two rows of one device (serial 7): the first has `validate_val = 0`, the
second `validate_val = 1`, so the device's history contains a
`validate_val == 1` row. -/
def exampleMixedDf : List Row := [⟨0, 7, 0, 0⟩, ⟨1, 7, 0, 1⟩]

/-- C4 as stated is false on the code: with `window_dim = 1`, the Hybrid Full
sub-frame is exactly `df_failed`, selected row-by-row by `validate_val == 1`;
row 0 of `exampleMixedDf` belongs to a device whose history contains
`validate_val == 1` (row 1 of the same serial), yet its label does not appear
in the Full sub-frame. -/
theorem C4_counterexample :
    ((⟨0, 7, 0, 0⟩ : Row) ∈ exampleMixedDf ∧ (⟨1, 7, 0, 1⟩ : Row) ∈ exampleMixedDf ∧
      (⟨0, 7, 0, 0⟩ : Row).serial = (⟨1, 7, 0, 1⟩ : Row).serial ∧
      (⟨1, 7, 0, 1⟩ : Row).validate_val = 1) ∧
    (⟨0, 7, 0, 0⟩ : Row).label ∉ failedFrameLabels exampleMixedDf 1 :=
  ⟨⟨by decide, by decide, by decide, by decide⟩, by decide⟩

/-- C4 amended: in Hybrid mode the Full sub-frame is selected by each row's
own `validate_val == 1`, not by the device's whole history; every such row is
kept in the Full sub-frame for every `window_dim`, unaffected by any
down-sampling (the failed frame is built by shift-and-concat alone, whose
index only grows); the Dynamic procedure is applied to the whole input table;
and the two frames are concatenated with the index reset to the fresh
contiguous range `0, 1, 2, ...`. -/
theorem C4_hybrid_routing (df dyn failed : List Row) (wdim : Nat) (r : Row)
    (hr : r ∈ df) :
    (r ∈ df_failed df ↔ r.validate_val = 1) ∧
    (r.validate_val = 1 → r.label ∈ failedFrameLabels df wdim) ∧
    (hybridCombine dyn failed).map Row.label =
      List.range (dyn.length + failed.length) := by
  refine ⟨?_, ?_, ?_⟩
  · unfold df_failed
    rw [List.mem_filter]
    constructor
    · rintro ⟨_, h⟩
      simpa using h
    · intro h
      exact ⟨hr, by simpa using h⟩
  · intro hv
    apply concatLoopLabels_mem
    refine List.mem_map_of_mem Row.label ?_
    unfold df_failed
    rw [List.mem_filter]
    exact ⟨hr, by simpa using hv⟩
  · unfold hybridCombine
    rw [resetIndex_labels, List.length_append]

/-- A table whose first row has `validate_val = 1`. -/
def exampleFailedDf : List Row := [⟨0, 8, 0, 1⟩, ⟨1, 8, 0, 0⟩]

theorem C4_witness :
    ((⟨0, 8, 0, 1⟩ : Row) ∈ df_failed exampleFailedDf ↔
      (⟨0, 8, 0, 1⟩ : Row).validate_val = 1) ∧
    ((⟨0, 8, 0, 1⟩ : Row).validate_val = 1 →
      (⟨0, 8, 0, 1⟩ : Row).label ∈ failedFrameLabels exampleFailedDf 3) ∧
    (hybridCombine exampleMixedDf exampleFailedDf).map Row.label =
      List.range (exampleMixedDf.length + exampleFailedDf.length) :=
  C4_hybrid_routing exampleFailedDf exampleMixedDf exampleFailedDf 3
    (⟨0, 8, 0, 1⟩ : Row) (by decide)

/-- The Python `count` dictionary lookup plus increment of lines 125-127: the
number of occurrences of `c` after seeing one more, given the association list
of counts so far (most recent entry first). -/
def bumpCount (count : List (String × Nat)) (c : String) : Nat :=
  match count.lookup c with
  | some k => k + 1
  | none => 1

/-- Name assigned to an occurrence (line 128):
`f"{column}_{count[column]}" if count[column] > 1 else column`. -/
def suffixName (c : String) (k : Nat) : String :=
  if k > 1 then c ++ "_" ++ toString k else c

/-- The renaming loop of `rename_columns` (lines 122-129). -/
def renameLoop : List String → List (String × Nat) → List String
  | [], _ => []
  | c :: cs, count =>
      suffixName c (bumpCount count c) :: renameLoop cs ((c, bumpCount count c) :: count)

instance decToListLe : DecidableRel (fun a b : String => a.toList ≤ b.toList) :=
  fun a b => inferInstanceAs (Decidable (a.toList ≤ b.toList))

instance : IsTotal String (fun a b : String => a.toList ≤ b.toList) :=
  ⟨fun a b => le_total a.toList b.toList⟩

instance : IsTrans String (fun a b : String => a.toList ≤ b.toList) :=
  ⟨fun _ _ _ h1 h2 => le_trans h1 h2⟩

/-- `DatasetProcessing.rename_columns` (lines 111-132): rename later
occurrences of a duplicated column name by appending `_2`, `_3`, ... in order
of occurrence, then sort the column labels lexicographically
(`df.sort_index(axis=1)`).  The sort compares labels in the character-list
order, which is exactly the `String` order (`String.le_iff_toList_le`) but
computes by structural recursion. -/
def rename_columns (cols : List String) : List String :=
  List.insertionSort (fun a b : String => a.toList ≤ b.toList) (renameLoop cols [])

/-- Number of occurrences of name `c` in a list of column names. -/
def occCount (cols : List String) (c : String) : Nat :=
  (cols.filter (fun x => x == c)).length

/-- Column labels produced by the Full shift-and-concat loop
(lines 150-153): each of the `window_dim - 1` iterations prepends another
copy of the base schema, giving `window_dim` concatenated copies. -/
def appendCopies (base : List String) : Nat → List String
  | 0 => base
  | n + 1 => base ++ appendCopies base n

def fullWindowCols (base : List String) (window_dim : Nat) : List String :=
  appendCopies base (window_dim - 1)

theorem occCount_append_self (l : List String) (c : String) :
    occCount (l ++ [c]) c = occCount l c + 1 := by
  unfold occCount
  rw [List.filter_append]
  simp

theorem occCount_append_ne (l : List String) (a c : String) (h : a ≠ c) :
    occCount (l ++ [a]) c = occCount l c := by
  unfold occCount
  rw [List.filter_append]
  simp [h]

theorem renameLoop_length (cols : List String) :
    ∀ count, (renameLoop cols count).length = cols.length := by
  induction cols with
  | nil =>
    intro count
    rfl
  | cons c cs ih =>
    intro count
    simp [renameLoop, ih]

theorem renameLoop_getD (cols : List String) :
    ∀ (count : List (String × Nat)) (seen : List String),
      (∀ c, ((count.lookup c).getD 0) = occCount seen c) →
      ∀ i, i < cols.length →
        (renameLoop cols count).getD i "" =
          suffixName (cols.getD i "")
            (occCount (seen ++ cols.take (i + 1)) (cols.getD i "")) := by
  induction cols with
  | nil =>
    intro count seen hinv i hi
    simp at hi
  | cons c cs ih =>
    intro count seen hinv i hi
    have hk : bumpCount count c = occCount seen c + 1 := by
      unfold bumpCount
      cases hl : count.lookup c with
      | none =>
        have h := hinv c
        rw [hl] at h
        simp only [Option.getD_none] at h
        show 1 = occCount seen c + 1
        omega
      | some k =>
        have h := hinv c
        rw [hl] at h
        simp only [Option.getD_some] at h
        show k + 1 = occCount seen c + 1
        omega
    cases i with
    | zero =>
      simp only [renameLoop, List.getD_cons_zero, List.take_succ_cons,
        List.take_zero]
      rw [occCount_append_self, hk]
    | succ i =>
      simp only [renameLoop, List.getD_cons_succ, List.take_succ_cons]
      have hinv2 : ∀ x, ((((c, bumpCount count c) :: count).lookup x).getD 0) =
          occCount (seen ++ [c]) x := by
        intro x
        by_cases hx : x = c
        · subst hx
          simp only [List.lookup, beq_self_eq_true, Option.getD_some]
          rw [occCount_append_self, hk]
        · have hcx : (x == c) = false := by
            simp [hx]
          simp only [List.lookup, hcx]
          rw [occCount_append_ne seen c x (Ne.symm hx)]
          exact hinv x
      rw [List.append_cons]
      exact ih ((c, bumpCount count c) :: count) (seen ++ [c]) hinv2 i
        (by simp at hi; omega)

theorem rename_columns_sorted (cols : List String) :
    List.Sorted (· ≤ ·) (rename_columns cols) := by
  have h := List.sorted_insertionSort (fun a b : String => a.toList ≤ b.toList)
    (renameLoop cols [])
  exact h.imp fun hab => String.le_iff_toList_le.mpr hab

/-- C6 as stated is false on the code: the WindowBuilder (Full overlap,
`window_dim = 2`) applied to the base schema `["a", "a_2"]` produces columns
`["a", "a_2", "a", "a_2"]`; the reconciler renames the second occurrence of
`"a"` to `"a_2"`, which collides with the base column already named `"a_2"`,
so the resulting sorted schema `["a", "a_2", "a_2", "a_2_2"]` contains a
duplicate name. -/
theorem C6_counterexample :
    fullWindowCols ["a", "a_2"] 2 = ["a", "a_2", "a", "a_2"] ∧
    rename_columns (fullWindowCols ["a", "a_2"] 2) = ["a", "a_2", "a_2", "a_2_2"] ∧
    ¬ (rename_columns (fullWindowCols ["a", "a_2"] 2)).Nodup :=
  ⟨by decide, by decide, by decide⟩

/-- C6 amended: after the ColumnReconciler the schema is sorted
lexicographically, has as many labels as the input, and the `i`-th occurrence
(`i ≥ 2`) of a duplicated name `col` is renamed to `col_i` in the order the
duplicates were produced (the first occurrence keeps the bare name) — but the
schema may still contain duplicate names when a produced name `col_i`
collides with a distinct base name that already carries that suffix. -/
theorem C6_schema_canonical (cols : List String) :
    List.Sorted (· ≤ ·) (rename_columns cols) ∧
    (rename_columns cols).length = cols.length ∧
    (∀ i, i < cols.length →
      (renameLoop cols []).getD i "" =
        suffixName (cols.getD i "")
          (occCount (cols.take (i + 1)) (cols.getD i ""))) := by
  refine ⟨rename_columns_sorted cols, ?_, ?_⟩
  · unfold rename_columns
    rw [(List.perm_insertionSort _ _).length_eq, renameLoop_length]
  · intro i hi
    have h := renameLoop_getD cols [] []
      (fun c => by simp [List.lookup, occCount]) i hi
    simpa using h

/-- A base schema with a repeated feature column. -/
def exampleCols : List String := ["smart_5_raw", "failure", "smart_5_raw"]

theorem C6_witness :
    (List.Sorted (· ≤ ·) (rename_columns exampleCols) ∧
      (rename_columns exampleCols).length = exampleCols.length ∧
      (∀ i, i < exampleCols.length →
        (renameLoop exampleCols []).getD i "" =
          suffixName (exampleCols.getD i "")
            (occCount (exampleCols.take (i + 1)) (exampleCols.getD i "")))) ∧
    (renameLoop exampleCols []).getD 2 "" =
      suffixName (exampleCols.getD 2 "")
        (occCount (exampleCols.take 3) (exampleCols.getD 2 "")) :=
  ⟨C6_schema_canonical exampleCols,
    (C6_schema_canonical exampleCols).2.2 2 (by decide)⟩

/-- A pandas table as the ValidityFilter sees it: the column names and the
rows, each a list of optional cells aligned with the columns (a missing value
— `NaN` — is `none`). -/
structure Table where
  cols : List String
  rows : List (List (Option Int))

/-- The essential identifier columns of line 251. -/
def essential_columns : List String := ["date", "serial_number", "capacity_bytes"]

/-- Value of column `c` in row `row` of table `t` (`none` when the column is
absent or the cell is missing). -/
def colValue (t : Table) (row : List (Option Int)) (c : String) : Option Int :=
  match t.cols.findIdx? (fun x => x == c) with
  | some i => row.getD i none
  | none => none

/-- A row survives `df.dropna(subset=essential_columns)` exactly when every
essential column holds a present value. -/
def rowComplete (t : Table) (row : List (Option Int)) : Bool :=
  essential_columns.all (fun c => (colValue t row c).isSome)

/-- The diagnostic of line 254:
`[col for col in essential_columns if col not in df.columns]`. -/
def missing_columns (t : Table) : List String :=
  essential_columns.filter (fun c => !(t.cols.contains c))

/-- The essential-column row-dropping step of `preprocess_dataset`
(lines 250-273): when no essential column is missing, drop the rows with a
missing value in any essential column (diagnostic empty); otherwise leave the
rows untouched and report exactly the missing columns. -/
def validity_row_drop (t : Table) : Table × List String :=
  if missing_columns t = [] then
    ({ t with rows := t.rows.filter (fun row => rowComplete t row) }, [])
  else
    (t, missing_columns t)

/-- C7: with windowing enabled, if `date`, `serial_number` and
`capacity_bytes` are all present the filter drops exactly the rows with a
missing value in any of them (and reports nothing); if any is absent it
reports exactly the missing names, skips the dropping step, and removes no
rows. -/
theorem C7_validity_filter (t : Table) :
    ((∀ c ∈ essential_columns, c ∈ t.cols) →
      (validity_row_drop t).2 = [] ∧
      ∀ row, row ∈ (validity_row_drop t).1.rows ↔
        row ∈ t.rows ∧ ∀ c ∈ essential_columns, (colValue t row c).isSome) ∧
    ((∃ c ∈ essential_columns, c ∉ t.cols) →
      (validity_row_drop t).1.rows = t.rows ∧
      ∀ c, c ∈ (validity_row_drop t).2 ↔ c ∈ essential_columns ∧ c ∉ t.cols) := by
  constructor
  · intro hall
    have hmiss : missing_columns t = [] := by
      unfold missing_columns
      rw [List.filter_eq_nil_iff]
      intro c hc
      simp [hall c hc]
    unfold validity_row_drop
    rw [if_pos hmiss]
    refine ⟨rfl, ?_⟩
    intro row
    simp only [List.mem_filter]
    constructor
    · rintro ⟨h1, h2⟩
      refine ⟨h1, ?_⟩
      unfold rowComplete at h2
      rw [List.all_eq_true] at h2
      intro c hc
      exact h2 c hc
    · rintro ⟨h1, h2⟩
      refine ⟨h1, ?_⟩
      unfold rowComplete
      rw [List.all_eq_true]
      intro c hc
      exact h2 c hc
  · rintro ⟨c0, hc0, hnc0⟩
    have hmiss : missing_columns t ≠ [] := by
      apply List.ne_nil_of_mem
      show c0 ∈ missing_columns t
      unfold missing_columns
      rw [List.mem_filter]
      exact ⟨hc0, by simp [hnc0]⟩
    unfold validity_row_drop
    rw [if_neg hmiss]
    refine ⟨rfl, ?_⟩
    intro c
    unfold missing_columns
    rw [List.mem_filter]
    simp

/-- A windowed table lacking only `capacity_bytes`; its second row even has a
missing `serial_number`, which the skipped step leaves in place. -/
def exampleTableMissing : Table :=
  { cols := ["date", "serial_number", "smart_1_raw"],
    rows := [[some 1, some 10, some 5], [some 2, none, some 6]] }

theorem C7_witness :
    (validity_row_drop exampleTableMissing).1.rows = exampleTableMissing.rows ∧
    (validity_row_drop exampleTableMissing).2 = ["capacity_bytes"] :=
  ⟨((C7_validity_filter exampleTableMissing).2 (by decide)).1, by decide⟩

end DiskPred
